import Mathlib

/-!
Verification of the segment-merger core of the caption tool.

The algorithmic core is the function `detect_speech_segments` of `src/main.py`
(lines 53-95).  After the external silence detector (`pydub.detect_nonsilent`)
has produced a list of raw non-silent `(startMs, endMs)` ranges, the function

* pads every raw range: start is moved back by `context_ms` (floored at 0),
  end is moved forward by `pause_ms`, and both endpoints are converted from
  milliseconds to seconds by dividing by 1000 (lines 72-78);
* merges the padded ranges with a single left-to-right pass carrying a
  `(current_start, current_end)` accumulator (lines 80-92).

We embed that computation shallowly: integer milliseconds become `ℤ`, the
seconds produced by Python's true division `/1000` become `ℚ` (the division is
exact for this data, so rationals track the arithmetic faithfully), lists
become `List`.  `silence_thresh` is consumed only by the external detector, so
it is carried as an (unused) parameter of the embedded function, mirroring the
Python signature.
-/

namespace Caption

/-- Padding of one raw range, the body of the loop at `src/main.py` lines
73-78: `context_start = max(0, start - context_ms)`,
`extended_end = end + pause_ms`, both divided by 1000 to convert the
milliseconds to seconds. -/
def pad_range (context_ms pause_ms : ℤ) (r : ℤ × ℤ) : ℚ × ℚ :=
  (((max 0 (r.1 - context_ms) : ℤ) : ℚ) / 1000, ((r.2 + pause_ms : ℤ) : ℚ) / 1000)

/-- The list `non_silent_ranges` built at `src/main.py` lines 72-78. -/
def non_silent_ranges (context_ms pause_ms : ℤ) (chunks : List (ℤ × ℤ)) :
    List (ℚ × ℚ) :=
  chunks.map (pad_range context_ms pause_ms)

/-- The merge loop of `src/main.py` lines 83-91, processing the padded ranges
after the first while carrying the accumulator `(current_start, current_end)`;
the final accumulator is appended after the loop (line 92), which here is the
base case. -/
def merge_loop (min_silence_len pause_ms context_ms : ℤ) :
    List (ℚ × ℚ) → ℚ → ℚ → List (ℚ × ℚ)
  | [], current_start, current_end => [(current_start, current_end)]
  | (s, e) :: rest, current_start, current_end =>
    if s ≤ current_end then
      merge_loop min_silence_len pause_ms context_ms rest current_start
        (max current_end e)
    else if (s - current_end) * 1000 >
        ((min_silence_len - pause_ms - context_ms : ℤ) : ℚ) then
      (current_start, current_end) ::
        merge_loop min_silence_len pause_ms context_ms rest s e
    else
      merge_loop min_silence_len pause_ms context_ms rest current_start e

/-- The `merged_ranges` computation of `src/main.py` lines 80-92: empty input
gives the empty list, otherwise the accumulator is seeded from the first
padded range and the loop runs over the rest. -/
def merged_ranges (min_silence_len pause_ms context_ms : ℤ) :
    List (ℚ × ℚ) → List (ℚ × ℚ)
  | [] => []
  | (s, e) :: rest => merge_loop min_silence_len pause_ms context_ms rest s e

/-- The merge step of `detect_speech_segments` (`src/main.py` lines 53-95),
from the raw non-silent chunks produced by the external silence detector to
the final merged ranges in seconds.  `silence_thresh` is only passed to the
external detector in the source and does not influence this computation. -/
def detect_speech_segments (min_silence_len silence_thresh context_ms pause_ms : ℤ)
    (non_silent_chunks : List (ℤ × ℤ)) : List (ℚ × ℚ) :=
  merged_ranges min_silence_len pause_ms context_ms
    (non_silent_ranges context_ms pause_ms non_silent_chunks)

/-! ### Well-formedness of the detector output

`pydub.detect_nonsilent` returns `[start, end]` millisecond ranges over the
audio timeline: each has `start < end`, they are sorted ascending by start and
pairwise non-overlapping (adjacent ranges satisfy `end ≤ next start`), and all
positions are non-negative offsets into the audio. -/

/-- Sorted-and-disjoint, as the claims enumerate it: pairwise, an earlier
range ends no later than a later one starts.  Together with `start < end` per
range this expresses "sorted ascending by start and pairwise
non-overlapping". -/
def SortedDisjoint (l : List (ℤ × ℤ)) : Prop :=
  List.Pairwise (fun a b : ℤ × ℤ => a.2 ≤ b.1) l

/-- Monotonicity relation between successive padded ranges: starts are
non-decreasing and ends strictly increase. -/
def PadMono (a b : ℚ × ℚ) : Prop := a.1 ≤ b.1 ∧ a.2 < b.2

/-- Dividing by 1000 preserves (non-)strict order on ℚ. -/
theorem div1000_le {a b : ℚ} (h : a ≤ b) : a / 1000 ≤ b / 1000 := by linarith

theorem div1000_lt {a b : ℚ} (h : a < b) : a / 1000 < b / 1000 := by linarith

/-- Padding is monotone: if a raw range ends before the next starts and both
are genuine (`start < end`), the padded ranges have non-decreasing starts and
strictly increasing ends. -/
theorem pad_range_mono (context_ms pause_ms : ℤ) {a b : ℤ × ℤ}
    (ha : a.1 < a.2) (hb : b.1 < b.2) (hab : a.2 ≤ b.1) :
    PadMono (pad_range context_ms pause_ms a) (pad_range context_ms pause_ms b) := by
  constructor
  · apply div1000_le
    have h1 : a.1 ≤ b.1 := le_of_lt (lt_of_lt_of_le ha hab)
    have : max 0 (a.1 - context_ms) ≤ max 0 (b.1 - context_ms) :=
      max_le_max le_rfl (by omega)
    exact_mod_cast this
  · apply div1000_lt
    have h2 : a.2 + pause_ms < b.2 + pause_ms := by omega
    exact_mod_cast h2

/-- The padded list of a sorted, disjoint, genuine chunk list is a `PadMono`
chain from its first padded range. -/
theorem pad_chain (context_ms pause_ms : ℤ) :
    ∀ (x : ℤ × ℤ) (l : List (ℤ × ℤ)),
      (∀ r ∈ x :: l, r.1 < r.2) →
      List.Chain (fun a b : ℤ × ℤ => a.2 ≤ b.1) x l →
      List.Chain PadMono (pad_range context_ms pause_ms x)
        (non_silent_ranges context_ms pause_ms l) := by
  intro x l
  induction l generalizing x with
  | nil => intro _ _; exact List.Chain.nil
  | cons b t ih =>
    intro helem hch
    rw [List.chain_cons] at hch
    refine List.Chain.cons ?_ (ih b (fun r hr => helem r (List.mem_cons_of_mem _ hr)) hch.2)
    exact pad_range_mono context_ms pause_ms (helem x (by simp)) (helem b (by simp)) hch.1

/-- The padded start is floored at 0, hence never negative
(`max(0, start - context_ms)` at `src/main.py` line 74). -/
theorem pad_range_start_nonneg (context_ms pause_ms : ℤ) (r : ℤ × ℤ) :
    0 ≤ (pad_range context_ms pause_ms r).1 := by
  have : (0 : ℤ) ≤ max 0 (r.1 - context_ms) := le_max_left _ _
  have h : (0 : ℚ) ≤ ((max 0 (r.1 - context_ms) : ℤ) : ℚ) := by exact_mod_cast this
  simpa [pad_range] using div1000_le h

/-- For a genuine raw range at a non-negative position and non-negative
padding parameters, the padded range is non-degenerate. -/
theorem pad_range_lt (context_ms pause_ms : ℤ) (r : ℤ × ℤ)
    (hc : 0 ≤ context_ms) (hp : 0 ≤ pause_ms) (h0 : 0 ≤ r.1) (h1 : r.1 < r.2) :
    (pad_range context_ms pause_ms r).1 < (pad_range context_ms pause_ms r).2 := by
  apply div1000_lt
  have : max 0 (r.1 - context_ms) < r.2 + pause_ms := by omega
  exact_mod_cast this

/-! ### The merge-loop invariant -/

/-- Strict separation of two successive output ranges. -/
def Sep (a b : ℚ × ℚ) : Prop := a.2 < b.1

/-- The gap between two successive output ranges, converted back to
milliseconds, exceeds the residual threshold
`min_silence_len - pause_ms - context_ms` of `src/main.py` line 87. -/
def GapOk (min_silence_len pause_ms context_ms : ℤ) (a b : ℚ × ℚ) : Prop :=
  (b.1 - a.2) * 1000 > ((min_silence_len - pause_ms - context_ms : ℤ) : ℚ)

/-- Containment of the interval `q` inside some interval of the list `L`. -/
def Covers (L : List (ℚ × ℚ)) (q : ℚ × ℚ) : Prop :=
  ∃ r ∈ L, r.1 ≤ q.1 ∧ q.2 ≤ r.2

/-- A `PadMono` chain survives moving its head down-left (smaller start, end
no larger). -/
theorem chain_padmono_weaken {x y : ℚ × ℚ} {l : List (ℚ × ℚ)}
    (h : List.Chain PadMono x l) (h1 : y.1 ≤ x.1) (h2 : y.2 ≤ x.2) :
    List.Chain PadMono y l := by
  cases l with
  | nil => exact List.Chain.nil
  | cons b t =>
    rw [List.chain_cons] at h ⊢
    exact ⟨⟨le_trans h1 h.1.1, lt_of_le_of_lt h2 h.1.2⟩, h.2⟩

/-- Main invariant of the merge loop (`src/main.py` lines 83-92).  If the
remaining padded ranges form a `PadMono` chain from the accumulator
`(cs, ce)`, then the loop returns a list whose head starts at `cs` and which
is strictly separated, has every adjacent gap above the residual threshold,
covers the accumulator and every remaining padded range, and (when the
accumulator and all remaining ranges are non-degenerate) consists of
non-degenerate ranges only. -/
theorem merge_loop_invariant (M p c : ℤ) :
    ∀ (rest : List (ℚ × ℚ)) (cs ce : ℚ),
      List.Chain PadMono (cs, ce) rest →
      ∃ y t, merge_loop M p c rest cs ce = (cs, y) :: t ∧
        List.Chain' Sep ((cs, y) :: t) ∧
        List.Chain' (GapOk M p c) ((cs, y) :: t) ∧
        (∀ q ∈ (cs, ce) :: rest, Covers ((cs, y) :: t) q) ∧
        (cs < ce → (∀ q ∈ rest, q.1 < q.2) → ∀ r ∈ (cs, y) :: t, r.1 < r.2) := by
  intro rest
  induction rest with
  | nil =>
    intro cs ce _
    refine ⟨ce, [], rfl, ?_, ?_, ?_, ?_⟩
    · simp [List.Chain']
    · simp [List.Chain']
    · intro q hq
      simp only [List.mem_cons, List.not_mem_nil, or_false] at hq
      exact ⟨(cs, ce), by simp, by simp [hq]⟩
    · intro h _ r hr
      simp only [List.mem_cons, List.not_mem_nil, or_false] at hr
      simpa [hr] using h
  | cons hd rest ih =>
    intro cs ce hch
    obtain ⟨s, e⟩ := hd
    rw [List.chain_cons] at hch
    obtain ⟨⟨hcs_s, hce_e⟩, hch'⟩ := hch
    by_cases hse : s ≤ ce
    · -- overlap: extend the accumulator (line 85)
      have hmax : max ce e = e := max_eq_right (le_of_lt hce_e)
      obtain ⟨y, t, heq, hsep, hgap, hcov, hlt⟩ :=
        ih cs e (chain_padmono_weaken hch' hcs_s le_rfl)
      refine ⟨y, t, ?_, hsep, hgap, ?_, ?_⟩
      · rw [merge_loop, if_pos hse, hmax]; exact heq
      · intro q hq
        rcases List.mem_cons.mp hq with hq | hq
        · obtain ⟨r, hr, h1, h2⟩ := hcov (cs, e) (by simp)
          exact ⟨r, hr, by simpa [hq] using h1, by simp [hq]; linarith⟩
        rcases List.mem_cons.mp hq with hq | hq
        · obtain ⟨r, hr, h1, h2⟩ := hcov (cs, e) (by simp)
          exact ⟨r, hr, by simp [hq]; linarith, by simpa [hq] using h2⟩
        · obtain ⟨r, hr, h1, h2⟩ := hcov q (List.mem_cons_of_mem _ hq)
          exact ⟨r, hr, h1, h2⟩
      · intro h1 h2
        exact hlt (lt_trans h1 hce_e) fun q hq => h2 q (List.mem_cons_of_mem _ hq)
    · by_cases hgapc : (s - ce) * 1000 > ((M - p - c : ℤ) : ℚ)
      · -- genuine silence: emit the accumulator, restart at (s, e) (lines 87-89)
        obtain ⟨y, t, heq, hsep, hgap, hcov, hlt⟩ := ih s e hch'
        refine ⟨ce, (s, y) :: t, ?_, ?_, ?_, ?_, ?_⟩
        · rw [merge_loop, if_neg hse, if_pos hgapc, heq]
        · exact List.chain'_cons.mpr ⟨not_le.mp hse, hsep⟩
        · exact List.chain'_cons.mpr ⟨hgapc, hgap⟩
        · intro q hq
          rcases List.mem_cons.mp hq with hq | hq
          · exact ⟨(cs, ce), by simp, by simp [hq]⟩
          · obtain ⟨r, hr, h1, h2⟩ := hcov q hq
            exact ⟨r, List.mem_cons_of_mem _ hr, h1, h2⟩
        · intro h1 h2 r hr
          rcases List.mem_cons.mp hr with hr | hr
          · simpa [hr] using h1
          · exact hlt (h2 (s, e) (by simp))
              (fun q hq => h2 q (List.mem_cons_of_mem _ hq)) r hr
      · -- short gap: treat as continuous speech, only advance the end (line 91)
        obtain ⟨y, t, heq, hsep, hgap, hcov, hlt⟩ :=
          ih cs e (chain_padmono_weaken hch' hcs_s le_rfl)
        refine ⟨y, t, ?_, hsep, hgap, ?_, ?_⟩
        · rw [merge_loop, if_neg hse, if_neg hgapc]; exact heq
        · intro q hq
          rcases List.mem_cons.mp hq with hq | hq
          · obtain ⟨r, hr, h1, h2⟩ := hcov (cs, e) (by simp)
            exact ⟨r, hr, by simpa [hq] using h1, by simp [hq]; linarith⟩
          rcases List.mem_cons.mp hq with hq | hq
          · obtain ⟨r, hr, h1, h2⟩ := hcov (cs, e) (by simp)
            exact ⟨r, hr, by simp [hq]; linarith, by simpa [hq] using h2⟩
          · obtain ⟨r, hr, h1, h2⟩ := hcov q (List.mem_cons_of_mem _ hq)
            exact ⟨r, hr, h1, h2⟩
        · intro h1 h2
          have hcse : cs < e := by
            have hs_e : s < e := h2 (s, e) (by simp)
            have : ce < s := not_le.mp hse
            linarith
          exact hlt hcse fun q hq => h2 q (List.mem_cons_of_mem _ hq)

/-! ### Bridging `detect_speech_segments` to the invariant -/

theorem merged_ranges_cons (M p c : ℤ) (x : ℚ × ℚ) (l : List (ℚ × ℚ)) :
    merged_ranges M p c (x :: l) = merge_loop M p c l x.1 x.2 := by
  obtain ⟨s, e⟩ := x
  rfl

theorem detect_cons (M th c p : ℤ) (x : ℤ × ℤ) (rest : List (ℤ × ℤ)) :
    detect_speech_segments M th c p (x :: rest) =
      merge_loop M p c (non_silent_ranges c p rest)
        (pad_range c p x).1 (pad_range c p x).2 := by
  have : non_silent_ranges c p (x :: rest) =
      pad_range c p x :: non_silent_ranges c p rest := by
    simp [non_silent_ranges]
  rw [detect_speech_segments, this, merged_ranges_cons]

/-- The merge-loop invariant, phrased on `detect_speech_segments` over a
non-empty raw chunk list. -/
theorem detect_invariant (M th c p : ℤ) (x : ℤ × ℤ) (rest : List (ℤ × ℤ))
    (hlt : ∀ r ∈ x :: rest, r.1 < r.2)
    (hsort : SortedDisjoint (x :: rest)) :
    ∃ y t,
      detect_speech_segments M th c p (x :: rest) = ((pad_range c p x).1, y) :: t ∧
      List.Chain' Sep (((pad_range c p x).1, y) :: t) ∧
      List.Chain' (GapOk M p c) (((pad_range c p x).1, y) :: t) ∧
      (∀ q ∈ x :: rest, Covers (((pad_range c p x).1, y) :: t) (pad_range c p q)) ∧
      (0 ≤ c → 0 ≤ p → (∀ r ∈ x :: rest, 0 ≤ r.1) →
        ∀ r ∈ ((pad_range c p x).1, y) :: t, r.1 < r.2) := by
  have hchain : List.Chain (fun a b : ℤ × ℤ => a.2 ≤ b.1) x rest := hsort.chain'
  have hpad : List.Chain PadMono (pad_range c p x) (non_silent_ranges c p rest) :=
    pad_chain c p x rest hlt hchain
  have hpad' : List.Chain PadMono ((pad_range c p x).1, (pad_range c p x).2)
      (non_silent_ranges c p rest) := hpad
  obtain ⟨y, t, heq, hsep, hgap, hcov, hnd⟩ :=
    merge_loop_invariant M p c (non_silent_ranges c p rest)
      (pad_range c p x).1 (pad_range c p x).2 hpad'
  refine ⟨y, t, ?_, hsep, hgap, ?_, ?_⟩
  · rw [detect_cons]; exact heq
  · intro q hq
    rcases List.mem_cons.mp hq with hq | hq
    · subst hq
      exact hcov ((pad_range c p q).1, (pad_range c p q).2) (by simp)
    · exact hcov (pad_range c p q)
        (List.mem_cons_of_mem _ (List.mem_map_of_mem _ hq))
  · intro hc hp hpos
    refine hnd ?_ ?_
    · exact pad_range_lt c p x hc hp (hpos x (by simp)) (hlt x (by simp))
    · intro q hq
      obtain ⟨r, hr, hrq⟩ := List.mem_map.mp hq
      subst hrq
      exact pad_range_lt c p r hc hp (hpos r (List.mem_cons_of_mem _ hr))
        (hlt r (List.mem_cons_of_mem _ hr))

/-! ### Chain' helpers -/

theorem chain'_conj {α : Type _} {R S : α → α → Prop} :
    ∀ l : List α, List.Chain' R l → List.Chain' S l →
      List.Chain' (fun a b => R a b ∧ S a b) l := by
  intro l
  induction l with
  | nil => intro _ _; simp
  | cons x t ih =>
    cases t with
    | nil => intro _ _; simp
    | cons z t2 =>
      intro hR hS
      rw [List.chain'_cons] at hR hS ⊢
      exact ⟨⟨hR.1, hS.1⟩, ih hR.2 hS.2⟩

/-- Strict separation of non-degenerate ranges forces strictly ascending
starts. -/
theorem chain'_sep_ascending :
    ∀ l : List (ℚ × ℚ), List.Chain' Sep l → (∀ r ∈ l, r.1 < r.2) →
      List.Chain' (fun a b : ℚ × ℚ => a.1 < b.1) l := by
  intro l
  induction l with
  | nil => intro _ _; simp
  | cons x t ih =>
    cases t with
    | nil => intro _ _; simp
    | cons z t2 =>
      intro hsep hnd
      rw [List.chain'_cons] at hsep ⊢
      refine ⟨?_, ih hsep.2 fun r hr => hnd r (List.mem_cons_of_mem _ hr)⟩
      have hx : x.1 < x.2 := hnd x (by simp)
      exact lt_trans hx hsep.1

/-! ### Counting output ranges -/

/-- Dividing by 1000 reflects order: the padded end is strictly monotone in
the raw end. -/
theorem pad_range_end_lt (c p : ℤ) {a b : ℤ × ℤ} (h : a.2 < b.2) :
    (pad_range c p a).2 < (pad_range c p b).2 := by
  apply div1000_lt
  exact_mod_cast (by omega : a.2 + p < b.2 + p)

/-- The overlap test of line 84, stated on the raw integers. -/
theorem pad_le_iff (c p : ℤ) (prev cur : ℤ × ℤ) :
    ((pad_range c p cur).1 ≤ (pad_range c p prev).2) ↔
      max 0 (cur.1 - c) ≤ prev.2 + p := by
  simp only [pad_range]
  rw [div_le_div_iff_of_pos_right (by norm_num : (0:ℚ) < 1000)]
  exact Int.cast_le

/-- The gap test of line 87, stated on the raw integers. -/
theorem pad_gap_iff (M c p : ℤ) (prev cur : ℤ × ℤ) :
    (((pad_range c p cur).1 - (pad_range c p prev).2) * 1000 >
        ((M - p - c : ℤ) : ℚ)) ↔
      max 0 (cur.1 - c) - (prev.2 + p) > M - p - c := by
  simp only [pad_range]
  have h : (((max 0 (cur.1 - c) : ℤ) : ℚ) / 1000 - ((prev.2 + p : ℤ) : ℚ) / 1000) * 1000
      = ((max 0 (cur.1 - c) : ℤ) : ℚ) - ((prev.2 + p : ℤ) : ℚ) := by ring
  rw [gt_iff_lt, h, ← Int.cast_sub, Int.cast_lt]

/-- Number of times the merge loop closes the accumulator, computed directly
on the raw chunks: for each adjacent raw pair, the loop's two tests (lines 84
and 87) evaluated on the padded endpoints. -/
def split_count (M p c : ℤ) : (ℤ × ℤ) → List (ℤ × ℤ) → ℕ
  | _, [] => 0
  | prev, cur :: rest =>
    (if (pad_range c p cur).1 ≤ (pad_range c p prev).2 then 0
     else if ((pad_range c p cur).1 - (pad_range c p prev).2) * 1000 >
         ((M - p - c : ℤ) : ℚ) then 1 else 0)
    + split_count M p c cur rest

/-- On well-formed raw input, the running end of the accumulator is always
the padded end of the previously processed chunk, so the output length is one
more than the number of accumulator closes. -/
theorem merge_loop_length (M p c : ℤ) :
    ∀ (rest : List (ℤ × ℤ)) (prev : ℤ × ℤ) (cs : ℚ),
      (∀ r ∈ prev :: rest, r.1 < r.2) →
      List.Chain (fun a b : ℤ × ℤ => a.2 ≤ b.1) prev rest →
      (merge_loop M p c (non_silent_ranges c p rest) cs
          (pad_range c p prev).2).length
        = 1 + split_count M p c prev rest := by
  intro rest
  induction rest with
  | nil => intro prev cs _ _; rfl
  | cons cur rest ih =>
    intro prev cs helem hch
    rw [List.chain_cons] at hch
    have helem2 : ∀ r ∈ cur :: rest, r.1 < r.2 :=
      fun r hr => helem r (List.mem_cons_of_mem _ hr)
    have hend : (pad_range c p prev).2 < (pad_range c p cur).2 := by
      apply pad_range_end_lt
      have h1 : prev.2 ≤ cur.1 := hch.1
      have h2 : cur.1 < cur.2 := helem2 cur (by simp)
      omega
    have hnsr : non_silent_ranges c p (cur :: rest) =
        ((pad_range c p cur).1, (pad_range c p cur).2) :: non_silent_ranges c p rest := by
      simp [non_silent_ranges]
    rw [hnsr, merge_loop, split_count]
    by_cases hA : (pad_range c p cur).1 ≤ (pad_range c p prev).2
    · rw [if_pos hA, if_pos hA, max_eq_right (le_of_lt hend)]
      rw [ih cur cs helem2 hch.2]
      omega
    · by_cases hB : ((pad_range c p cur).1 - (pad_range c p prev).2) * 1000 >
          ((M - p - c : ℤ) : ℚ)
      · rw [if_neg hA, if_pos hB, if_neg hA, if_pos hB, List.length_cons]
        rw [ih cur (pad_range c p cur).1 helem2 hch.2]
        omega
      · rw [if_neg hA, if_neg hB, if_neg hA, if_neg hB]
        rw [ih cur cs helem2 hch.2]
        omega

/-- Monotonicity of the split decision: if the loop closes the accumulator
between two raw chunks at the larger padding, it also closes it at the
smaller padding. Needs the raw chunks to sit at non-negative positions. -/
theorem split_test_mono (M p c p' c' : ℤ) (prev cur : ℤ × ℤ)
    (hp0 : 0 ≤ p) (hpp : p ≤ p') (hc0 : 0 ≤ c) (hcc : c ≤ c') (hprev : 0 ≤ prev.2)
    (hA : ¬ ((pad_range c' p' cur).1 ≤ (pad_range c' p' prev).2))
    (hB : ((pad_range c' p' cur).1 - (pad_range c' p' prev).2) * 1000 >
        ((M - p' - c' : ℤ) : ℚ)) :
    ¬ ((pad_range c p cur).1 ≤ (pad_range c p prev).2) ∧
      ((pad_range c p cur).1 - (pad_range c p prev).2) * 1000 >
        ((M - p - c : ℤ) : ℚ) := by
  rw [pad_le_iff] at hA
  rw [pad_gap_iff] at hB
  rw [pad_le_iff, pad_gap_iff]
  omega

theorem split_count_mono (M p c p' c' : ℤ)
    (hp0 : 0 ≤ p) (hpp : p ≤ p') (hc0 : 0 ≤ c) (hcc : c ≤ c') :
    ∀ (rest : List (ℤ × ℤ)) (prev : ℤ × ℤ), 0 ≤ prev.2 → (∀ r ∈ rest, 0 ≤ r.2) →
      split_count M p' c' prev rest ≤ split_count M p c prev rest := by
  intro rest
  induction rest with
  | nil => intro prev _ _; exact le_refl 0
  | cons cur rest ih =>
    intro prev hprev hrest
    rw [split_count, split_count]
    have htail := ih cur (hrest cur (by simp))
      (fun r hr => hrest r (List.mem_cons_of_mem _ hr))
    have hhead : (if (pad_range c' p' cur).1 ≤ (pad_range c' p' prev).2 then 0
        else if ((pad_range c' p' cur).1 - (pad_range c' p' prev).2) * 1000 >
            ((M - p' - c' : ℤ) : ℚ) then 1 else 0)
        ≤ (if (pad_range c p cur).1 ≤ (pad_range c p prev).2 then 0
        else if ((pad_range c p cur).1 - (pad_range c p prev).2) * 1000 >
            ((M - p - c : ℤ) : ℚ) then 1 else 0) := by
      by_cases hA : (pad_range c' p' cur).1 ≤ (pad_range c' p' prev).2
      · rw [if_pos hA]; exact Nat.zero_le _
      · by_cases hB : ((pad_range c' p' cur).1 - (pad_range c' p' prev).2) * 1000 >
            ((M - p' - c' : ℤ) : ℚ)
        · obtain ⟨hA2, hB2⟩ :=
            split_test_mono M p c p' c' prev cur hp0 hpp hc0 hcc hprev hA hB
          rw [if_neg hA, if_pos hB, if_neg hA2, if_pos hB2]
        · rw [if_neg hA, if_neg hB]; exact Nat.zero_le _
    omega

/-- The output length of `detect_speech_segments` on a non-empty well-formed
input is one more than the number of accumulator closes. -/
theorem detect_length (M th c p : ℤ) (x : ℤ × ℤ) (rest : List (ℤ × ℤ))
    (hlt : ∀ r ∈ x :: rest, r.1 < r.2) (hsort : SortedDisjoint (x :: rest)) :
    (detect_speech_segments M th c p (x :: rest)).length
      = 1 + split_count M p c x rest := by
  rw [detect_cons]
  exact merge_loop_length M p c rest x _ hlt hsort.chain'

instance SortedDisjoint.dec (l : List (ℤ × ℤ)) : Decidable (SortedDisjoint l) :=
  inferInstanceAs (Decidable (List.Pairwise (fun a b : ℤ × ℤ => a.2 ≤ b.1) l))

/-! ### The claims -/

/-- Claim C1 (coverage): for every input sequence of raw ranges that is
sorted ascending by start, pairwise non-overlapping, and has start < end for
each range, and for all non-negative integer parameters, every raw range's
padded interval [max(0, start - context_ms)/1000, (end + pause_ms)/1000] is
fully contained in some interval of the merge output. -/
theorem claim_coverage (min_silence_len silence_thresh context_ms pause_ms : ℤ)
    (l : List (ℤ × ℤ))
    (hM : 0 ≤ min_silence_len) (hc : 0 ≤ context_ms) (hp : 0 ≤ pause_ms)
    (hlt : ∀ r ∈ l, r.1 < r.2) (hsort : SortedDisjoint l) :
    ∀ q ∈ l,
      ∃ r ∈ detect_speech_segments min_silence_len silence_thresh context_ms pause_ms l,
        r.1 ≤ (pad_range context_ms pause_ms q).1 ∧
          (pad_range context_ms pause_ms q).2 ≤ r.2 := by
  cases l with
  | nil => intro q hq; simp at hq
  | cons x rest =>
    obtain ⟨y, t, heq, _, _, hcov, _⟩ :=
      detect_invariant min_silence_len silence_thresh context_ms pause_ms x rest hlt hsort
    intro q hq
    obtain ⟨r, hr, h1, h2⟩ := hcov q hq
    exact ⟨r, by rw [heq]; exact hr, h1, h2⟩

/-- Witness for C1 at a concrete well-formed input. -/
theorem claim_coverage_witness :
    ((0:ℤ) ≤ 700 ∧ (0:ℤ) ≤ 300 ∧ (0:ℤ) ≤ 500 ∧
      (∀ r ∈ [((0:ℤ), (1000:ℤ)), ((2000:ℤ), (3000:ℤ))], r.1 < r.2) ∧
      SortedDisjoint [((0:ℤ), (1000:ℤ)), ((2000:ℤ), (3000:ℤ))]) ∧
    ∀ q ∈ [((0:ℤ), (1000:ℤ)), ((2000:ℤ), (3000:ℤ))],
      ∃ r ∈ detect_speech_segments 700 (-35) 300 500 [(0, 1000), (2000, 3000)],
        r.1 ≤ (pad_range 300 500 q).1 ∧ (pad_range 300 500 q).2 ≤ r.2 :=
  ⟨⟨by decide, by decide, by decide, by decide, by decide⟩,
    claim_coverage 700 (-35) 300 500 _ (by decide) (by decide) (by decide)
      (by decide) (by decide)⟩

/-- Counterexample to claim C2 as stated: on the well-formed input
(0,1000), (2000,3000) ms with min_silence_len=700, context=300, pause=500,
the output is (0, 1.5), (1.7, 3.5) and the adjacent output gap is
(1.7 - 1.5)*1000 = 200 ms, which is not ≥ 700 = min_silence_len. -/
theorem claim_min_spacing_counterexample :
    (∀ r ∈ [((0:ℤ), (1000:ℤ)), ((2000:ℤ), (3000:ℤ))], r.1 < r.2) ∧
    SortedDisjoint [((0:ℤ), (1000:ℤ)), ((2000:ℤ), (3000:ℤ))] ∧
    detect_speech_segments 700 (-35) 300 500 [(0, 1000), (2000, 3000)] =
      [(0, 3/2), (17/10, 7/2)] ∧
    ¬(((17:ℚ)/10 - 3/2) * 1000 ≥ (700 : ℚ)) := by
  refine ⟨by decide, by decide, ?_, by norm_num⟩
  norm_num [detect_speech_segments, merged_ranges, non_silent_ranges, pad_range, merge_loop]

/-- Claim C2, amended: on well-formed input with non-negative parameters, no
two output ranges overlap, and every adjacent output pair (a, b) satisfies
(b.start - a.end) * 1000 > min_silence_len - pause_ms - context_ms (the
loop's actual emission threshold, line 87), rather than
(b.start - a.end) * 1000 ≥ min_silence_len. -/
theorem claim_min_spacing_amended (min_silence_len silence_thresh context_ms pause_ms : ℤ)
    (l : List (ℤ × ℤ))
    (hM : 0 ≤ min_silence_len) (hc : 0 ≤ context_ms) (hp : 0 ≤ pause_ms)
    (hlt : ∀ r ∈ l, r.1 < r.2) (hsort : SortedDisjoint l) :
    List.Chain' (fun a b : ℚ × ℚ => a.2 < b.1 ∧
        (b.1 - a.2) * 1000 > ((min_silence_len - pause_ms - context_ms : ℤ) : ℚ))
      (detect_speech_segments min_silence_len silence_thresh context_ms pause_ms l) := by
  cases l with
  | nil => simp [detect_speech_segments, non_silent_ranges, merged_ranges]
  | cons x rest =>
    obtain ⟨y, t, heq, hsep, hgap, _, _⟩ :=
      detect_invariant min_silence_len silence_thresh context_ms pause_ms x rest hlt hsort
    rw [heq]
    exact chain'_conj _ hsep hgap

/-- Witness for the amended C2 at a concrete well-formed input. -/
theorem claim_min_spacing_witness :
    ((0:ℤ) ≤ 700 ∧ (0:ℤ) ≤ 300 ∧ (0:ℤ) ≤ 500 ∧
      (∀ r ∈ [((0:ℤ), (1000:ℤ)), ((2000:ℤ), (3000:ℤ))], r.1 < r.2) ∧
      SortedDisjoint [((0:ℤ), (1000:ℤ)), ((2000:ℤ), (3000:ℤ))]) ∧
    List.Chain' (fun a b : ℚ × ℚ => a.2 < b.1 ∧
        (b.1 - a.2) * 1000 > ((700 - 500 - 300 : ℤ) : ℚ))
      (detect_speech_segments 700 (-35) 300 500 [(0, 1000), (2000, 3000)]) :=
  ⟨⟨by decide, by decide, by decide, by decide, by decide⟩,
    claim_min_spacing_amended 700 (-35) 300 500 _ (by decide) (by decide) (by decide)
      (by decide) (by decide)⟩

/-- Counterexample to claim C3 as stated: the single raw range (-5, -2)
satisfies the claim's enumerated well-formedness (sorted, non-overlapping,
start < end), the parameters 0, 0, 0 are non-negative, yet the sole output
range (0, -1/500) has end < start.  (Such an input cannot arise from the
silence detector, whose ranges are non-negative audio offsets.) -/
theorem claim_output_wellformed_counterexample :
    (∀ r ∈ [((-5:ℤ), (-2:ℤ))], r.1 < r.2) ∧
    SortedDisjoint [((-5:ℤ), (-2:ℤ))] ∧
    detect_speech_segments 0 (-35) 0 0 [(-5, -2)] = [(0, -1/500)] ∧
    ¬((0:ℚ) < (-1/500 : ℚ)) := by
  refine ⟨by decide, by decide, ?_, by norm_num⟩
  norm_num [detect_speech_segments, merged_ranges, non_silent_ranges, pad_range, merge_loop]

/-- Claim C3, amended: with the additional (data-model) hypothesis that raw
ranges sit at non-negative millisecond positions, the output is strictly
ascending by start, adjacent outputs satisfy a.end ≤ b.start, and every
output range satisfies start < end. -/
theorem claim_output_wellformed (min_silence_len silence_thresh context_ms pause_ms : ℤ)
    (l : List (ℤ × ℤ))
    (hM : 0 ≤ min_silence_len) (hc : 0 ≤ context_ms) (hp : 0 ≤ pause_ms)
    (hpos : ∀ r ∈ l, 0 ≤ r.1) (hlt : ∀ r ∈ l, r.1 < r.2) (hsort : SortedDisjoint l) :
    List.Chain' (fun a b : ℚ × ℚ => a.1 < b.1)
      (detect_speech_segments min_silence_len silence_thresh context_ms pause_ms l) ∧
    List.Chain' (fun a b : ℚ × ℚ => a.2 ≤ b.1)
      (detect_speech_segments min_silence_len silence_thresh context_ms pause_ms l) ∧
    ∀ r ∈ detect_speech_segments min_silence_len silence_thresh context_ms pause_ms l,
      r.1 < r.2 := by
  cases l with
  | nil =>
    refine ⟨?_, ?_, ?_⟩ <;>
      simp [detect_speech_segments, non_silent_ranges, merged_ranges]
  | cons x rest =>
    obtain ⟨y, t, heq, hsep, _, _, hnd⟩ :=
      detect_invariant min_silence_len silence_thresh context_ms pause_ms x rest hlt hsort
    have hnd' := hnd hc hp hpos
    rw [heq]
    exact ⟨chain'_sep_ascending _ hsep hnd',
      List.Chain'.imp (fun a b hab => le_of_lt hab) hsep, hnd'⟩

/-- Witness for the amended C3 at a concrete well-formed input. -/
theorem claim_output_wellformed_witness :
    ((0:ℤ) ≤ 700 ∧ (0:ℤ) ≤ 300 ∧ (0:ℤ) ≤ 500 ∧
      (∀ r ∈ [((0:ℤ), (1000:ℤ)), ((2000:ℤ), (3000:ℤ))], 0 ≤ r.1) ∧
      (∀ r ∈ [((0:ℤ), (1000:ℤ)), ((2000:ℤ), (3000:ℤ))], r.1 < r.2) ∧
      SortedDisjoint [((0:ℤ), (1000:ℤ)), ((2000:ℤ), (3000:ℤ))]) ∧
    (List.Chain' (fun a b : ℚ × ℚ => a.1 < b.1)
      (detect_speech_segments 700 (-35) 300 500 [(0, 1000), (2000, 3000)]) ∧
    List.Chain' (fun a b : ℚ × ℚ => a.2 ≤ b.1)
      (detect_speech_segments 700 (-35) 300 500 [(0, 1000), (2000, 3000)]) ∧
    ∀ r ∈ detect_speech_segments 700 (-35) 300 500 [(0, 1000), (2000, 3000)],
      r.1 < r.2) :=
  ⟨⟨by decide, by decide, by decide, by decide, by decide, by decide⟩,
    claim_output_wellformed 700 (-35) 300 500 _ (by decide) (by decide) (by decide)
      (by decide) (by decide) (by decide)⟩

/-- Claim C4 (monotone in padding): for well-formed detector output (sorted,
non-overlapping, start < end, non-negative positions per the data model),
holding min_silence_len fixed, increasing context_ms or pause_ms by any
non-negative amount never increases the number of output ranges. -/
theorem claim_monotone_in_padding (min_silence_len silence_thresh : ℤ)
    (context_ms pause_ms context_ms' pause_ms' : ℤ) (l : List (ℤ × ℤ))
    (hc0 : 0 ≤ context_ms) (hcc : context_ms ≤ context_ms')
    (hp0 : 0 ≤ pause_ms) (hpp : pause_ms ≤ pause_ms')
    (hpos : ∀ r ∈ l, 0 ≤ r.1) (hlt : ∀ r ∈ l, r.1 < r.2) (hsort : SortedDisjoint l) :
    (detect_speech_segments min_silence_len silence_thresh context_ms' pause_ms' l).length ≤
      (detect_speech_segments min_silence_len silence_thresh context_ms pause_ms l).length := by
  cases l with
  | nil => simp [detect_speech_segments, non_silent_ranges, merged_ranges]
  | cons x rest =>
    rw [detect_length min_silence_len silence_thresh context_ms' pause_ms' x rest hlt hsort,
      detect_length min_silence_len silence_thresh context_ms pause_ms x rest hlt hsort]
    have hx2 : 0 ≤ x.2 := by
      have h1 := hpos x (by simp)
      have h2 := hlt x (by simp)
      omega
    have hrest : ∀ r ∈ rest, 0 ≤ r.2 := by
      intro r hr
      have h1 := hpos r (List.mem_cons_of_mem _ hr)
      have h2 := hlt r (List.mem_cons_of_mem _ hr)
      omega
    have := split_count_mono min_silence_len pause_ms context_ms pause_ms' context_ms'
      hp0 hpp hc0 hcc rest x hx2 hrest
    omega

/-- Witness for C4 at a concrete input and concrete increased padding. -/
theorem claim_monotone_in_padding_witness :
    ((0:ℤ) ≤ 300 ∧ (300:ℤ) ≤ 400 ∧ (0:ℤ) ≤ 500 ∧ (500:ℤ) ≤ 600 ∧
      (∀ r ∈ [((0:ℤ), (1000:ℤ)), ((2000:ℤ), (3000:ℤ))], 0 ≤ r.1) ∧
      (∀ r ∈ [((0:ℤ), (1000:ℤ)), ((2000:ℤ), (3000:ℤ))], r.1 < r.2) ∧
      SortedDisjoint [((0:ℤ), (1000:ℤ)), ((2000:ℤ), (3000:ℤ))]) ∧
    (detect_speech_segments 700 (-35) 400 600 [(0, 1000), (2000, 3000)]).length ≤
      (detect_speech_segments 700 (-35) 300 500 [(0, 1000), (2000, 3000)]).length :=
  ⟨⟨by decide, by decide, by decide, by decide, by decide, by decide, by decide⟩,
    claim_monotone_in_padding 700 (-35) 300 500 400 600 _ (by decide) (by decide)
      (by decide) (by decide) (by decide) (by decide) (by decide)⟩

/-- Claim C5 (two-range formula example): for raw ranges (0,1000) and
(1200,2000) ms with min_silence_len=700, context=300, pause=500, the padded
ranges are (0, 1.5) and (0.9, 2.5) seconds; the second padded start 0.9 does
not exceed the running end 1.5 (the overlap test of line 84 fires), so the
ranges are merged and the output is the single range (0, 2.5) seconds.  The
gap test, when reached, is the literal strict comparison
gap_ms > min_silence_len - pause_ms - context_ms of line 87 (threshold
700-500-300 = -100 here, negative). -/
theorem claim_two_range_example :
    non_silent_ranges 300 500 [(0, 1000), (1200, 2000)] = [(0, 3/2), (9/10, 5/2)] ∧
    ((9:ℚ)/10 ≤ 3/2) ∧
    ((700 - 500 - 300 : ℤ) : ℚ) = -100 ∧
    detect_speech_segments 700 (-35) 300 500 [(0, 1000), (1200, 2000)] = [(0, 5/2)] := by
  refine ⟨?_, by norm_num, by norm_num, ?_⟩ <;>
    norm_num [detect_speech_segments, merged_ranges, non_silent_ranges, pad_range, merge_loop]

/-- Claim C6 (single-range example): for the single raw range (1000, 2000) ms
with context=300 and pause=500, for every min_silence_len (and silence
threshold), the output is exactly the one range (0.7, 2.5) seconds. -/
theorem claim_single_range_example (min_silence_len silence_thresh : ℤ) :
    detect_speech_segments min_silence_len silence_thresh 300 500 [(1000, 2000)] =
      [(7/10, 5/2)] := by
  show merge_loop min_silence_len 500 300 [] _ _ = _
  rw [merge_loop]
  norm_num [pad_range]

/-- Claim C7 (clamping at zero): for every raw range the padded start is
max(0, start - context_ms)/1000, never negative; in particular for the raw
range (100, 500) ms with context_ms = 300 the padded start is exactly 0. -/
theorem claim_clamping_at_zero :
    (∀ (context_ms pause_ms : ℤ) (r : ℤ × ℤ),
        (pad_range context_ms pause_ms r).1 =
          ((max 0 (r.1 - context_ms) : ℤ) : ℚ) / 1000 ∧
        0 ≤ (pad_range context_ms pause_ms r).1) ∧
    ∀ pause_ms : ℤ, (pad_range 300 pause_ms (100, 500)).1 = 0 := by
  refine ⟨fun c p r => ⟨rfl, pad_range_start_nonneg c p r⟩, fun p => ?_⟩
  norm_num [pad_range]

/-- Claim C8 (empty input): for every choice of min_silence_len,
silence_thresh, context_ms, pause_ms, the merge step maps the empty sequence
of raw ranges to the empty sequence. -/
theorem claim_empty_input (min_silence_len silence_thresh context_ms pause_ms : ℤ) :
    detect_speech_segments min_silence_len silence_thresh context_ms pause_ms [] = [] :=
  rfl

/-- Claim C9 (determinism): the merge step is a pure function of its inputs;
two invocations on identical inputs return identical output sequences. -/
theorem claim_determinism (min_silence_len silence_thresh context_ms pause_ms : ℤ)
    (l : List (ℤ × ℤ)) :
    detect_speech_segments min_silence_len silence_thresh context_ms pause_ms l =
      detect_speech_segments min_silence_len silence_thresh context_ms pause_ms l :=
  rfl

/-- Claim C10 (strict separation): on well-formed input (sorted,
non-overlapping raw ranges with start < end) and non-negative parameters,
adjacent output ranges are strictly separated: a.end < b.start. -/
theorem claim_strict_separation (min_silence_len silence_thresh context_ms pause_ms : ℤ)
    (l : List (ℤ × ℤ))
    (hM : 0 ≤ min_silence_len) (hc : 0 ≤ context_ms) (hp : 0 ≤ pause_ms)
    (hlt : ∀ r ∈ l, r.1 < r.2) (hsort : SortedDisjoint l) :
    List.Chain' (fun a b : ℚ × ℚ => a.2 < b.1)
      (detect_speech_segments min_silence_len silence_thresh context_ms pause_ms l) := by
  cases l with
  | nil => simp [detect_speech_segments, non_silent_ranges, merged_ranges]
  | cons x rest =>
    obtain ⟨y, t, heq, hsep, _, _, _⟩ :=
      detect_invariant min_silence_len silence_thresh context_ms pause_ms x rest hlt hsort
    rw [heq]
    exact hsep

/-- Witness for C10 at a concrete well-formed input with two output ranges. -/
theorem claim_strict_separation_witness :
    ((0:ℤ) ≤ 700 ∧ (0:ℤ) ≤ 300 ∧ (0:ℤ) ≤ 500 ∧
      (∀ r ∈ [((0:ℤ), (1000:ℤ)), ((2000:ℤ), (3000:ℤ))], r.1 < r.2) ∧
      SortedDisjoint [((0:ℤ), (1000:ℤ)), ((2000:ℤ), (3000:ℤ))]) ∧
    List.Chain' (fun a b : ℚ × ℚ => a.2 < b.1)
      (detect_speech_segments 700 (-35) 300 500 [(0, 1000), (2000, 3000)]) :=
  ⟨⟨by decide, by decide, by decide, by decide, by decide⟩,
    claim_strict_separation 700 (-35) 300 500 _ (by decide) (by decide) (by decide)
      (by decide) (by decide)⟩

end Caption
